import Mathlib

/-!
Verification of the context-sensitive range query engine
(`xls/passes/context_sensitive_range_query_engine.cc`).

The deciding logic — predicate back-propagation (`BackPropagate`), the
analysis driver (`Analysis::Execute`, `ExtractSelectorValue`) and
`SpecializeGivenPredicate` — is ported directly from the source file.
The leaf interval-set and ternary primitives (`xls/ir/interval_set.h`,
`xls/ir/ternary.h`, `xls/ir/interval_ops.h`) are not part of the source
slice; they are modelled from the data-model of the specification and
interval-arithmetic contracts (spec sections 3 and 4.1).

Values are unsigned machine integers represented as `Nat` together with an
explicit bit width; overflow is explicit (`% 2 ^ w`).
-/

namespace XlsRQE

/-- Modelled from the spec: an `Interval` is a closed range `[lo, hi]` of
unsigned values at a fixed bit width (the width is carried by the enclosing
set).  An interval with `hi < lo` is *improper* and denotes the wrap-around
set `[lo, max] ∪ [0, hi]`; `Normalize` materializes improper intervals as
two proper ones. -/
structure Interval where
  lo : Nat
  hi : Nat
deriving DecidableEq, Repr

/-- Membership of a value in one interval (wrap-around semantics for
improper intervals). -/
def Interval.memB (i : Interval) (v : Nat) : Bool :=
  if i.lo ≤ i.hi then decide (i.lo ≤ v) && decide (v ≤ i.hi)
  else decide (i.lo ≤ v) || decide (v ≤ i.hi)

def Interval.isImproper (i : Interval) : Bool := decide (i.hi < i.lo)

/-- Modelled from the spec: an `IntervalSet` is a collection of intervals
sharing one bit width; `Normalize` sorts and merges it into a canonical
non-overlapping, non-adjacent ascending form. -/
structure IntervalSet where
  width : Nat
  intervals : List Interval
deriving DecidableEq, Repr

def memList (l : List Interval) (v : Nat) : Bool := l.any (fun i => i.memB v)

def IntervalSet.memB (s : IntervalSet) (v : Nat) : Bool := memList s.intervals v

/-- `AddInterval` accumulates a (possibly unnormalized) interval. -/
def IntervalSet.addInterval (s : IntervalSet) (i : Interval) : IntervalSet :=
  ⟨s.width, s.intervals ++ [i]⟩

/-- First normalization step: split improper (wrap-around) intervals into
their two proper halves. -/
def expandImproper (w : Nat) : List Interval → List Interval
  | [] => []
  | i :: rest =>
    (if i.isImproper then [⟨0, i.hi⟩, ⟨i.lo, 2 ^ w - 1⟩] else [i]) ++
      expandImproper w rest

/-- Insertion into a list sorted by lower bound. -/
def insertByLo (i : Interval) : List Interval → List Interval
  | [] => [i]
  | j :: rest => if i.lo ≤ j.lo then i :: j :: rest else j :: insertByLo i rest

/-- Sort intervals ascending by lower bound. -/
def sortByLo : List Interval → List Interval
  | [] => []
  | i :: rest => insertByLo i (sortByLo rest)

/-- Merge a sorted run of intervals into the pending interval `a`:
overlapping or abutting intervals are coalesced. -/
def mergeInto (a : Interval) : List Interval → List Interval
  | [] => [a]
  | b :: rest =>
    if b.lo ≤ a.hi + 1 then mergeInto ⟨a.lo, max a.hi b.hi⟩ rest
    else a :: mergeInto b rest

/-- Merge overlapping/adjacent intervals of a lo-sorted proper list. -/
def mergeSortedByLo : List Interval → List Interval
  | [] => []
  | a :: rest => mergeInto a rest

/-- Modelled from the spec: `Normalize` — split improper intervals, sort,
and merge overlapping/adjacent ranges. -/
def IntervalSet.normalize (s : IntervalSet) : IntervalSet :=
  ⟨s.width, mergeSortedByLo (sortByLo (expandImproper s.width s.intervals))⟩

/-- Gaps of a normalized (sorted, separated, proper) interval list within
`[start, 2 ^ w - 1]`. -/
def gapsFrom (w : Nat) : Nat → List Interval → List Interval
  | start, [] => if start ≤ 2 ^ w - 1 then [⟨start, 2 ^ w - 1⟩] else []
  | start, i :: rest =>
    (if start < i.lo then [⟨start, i.lo - 1⟩] else []) ++ gapsFrom w (i.hi + 1) rest

/-- Modelled from the spec: `Complement` relative to the full
`[0, 2 ^ width - 1]` range; the result is itself normalized. -/
def IntervalSet.complement (s : IntervalSet) : IntervalSet :=
  ⟨s.width, gapsFrom s.width 0 s.normalize.intervals⟩

/-- Modelled from the spec: `Intersect` returns the set of points in both
sets (same width), normalized. -/
def IntervalSet.intersect (s t : IntervalSet) : IntervalSet :=
  IntervalSet.normalize
    ⟨s.width,
      (s.normalize.intervals.map (fun a =>
        t.normalize.intervals.filterMap (fun b =>
          let lo := max a.lo b.lo
          let hi := min a.hi b.hi
          if lo ≤ hi then some (⟨lo, hi⟩ : Interval) else none))).flatten⟩

/-- `IsPrecise`: exactly one interval of size one (assumes normalized). -/
def IntervalSet.isPrecise (s : IntervalSet) : Bool :=
  match s.intervals with
  | [i] => decide (i.lo = i.hi)
  | _ => false

/-- `GetPreciseValue`: the single value of a precise set. -/
def IntervalSet.getPreciseValue (s : IntervalSet) : Option Nat :=
  match s.intervals with
  | [i] => if i.lo = i.hi then some i.lo else none
  | _ => none

/-- `LowerBound`: smallest covered value. -/
def IntervalSet.lowerBound (s : IntervalSet) : Option Nat :=
  match s.normalize.intervals with
  | [] => none
  | i :: _ => some i.lo

/-- `UpperBound`: largest covered value. -/
def IntervalSet.upperBound (s : IntervalSet) : Option Nat :=
  match s.normalize.intervals.getLast? with
  | none => none
  | some i => some i.hi

/-- `IntervalSet::Precise`: the singleton set `{v}` at width `w`. -/
def IntervalSet.precise (w v : Nat) : IntervalSet := ⟨w, [⟨v, v⟩]⟩

/-- `IntervalSet::Maximal`: the full range `[0, 2 ^ w - 1]`. -/
def IntervalSet.maximal (w : Nat) : IntervalSet := ⟨w, [⟨0, 2 ^ w - 1⟩]⟩

/-- Modular increment at width `w` (`bits_ops::Increment`). -/
def modIncr (w v : Nat) : Nat := (v + 1) % 2 ^ w

/-- Modular decrement at width `w` (`bits_ops::Decrement`). -/
def modDecr (w v : Nat) : Nat := (v + (2 ^ w - 1)) % 2 ^ w

/-- `Interval::Open`: `(lo, hi)` materialized closed. -/
def Interval.openBoth (w lo hi : Nat) : Interval := ⟨modIncr w lo, modDecr w hi⟩

/-- `Interval::LeftOpen`: `(lo, hi]` materialized closed. -/
def Interval.leftOpen (w lo hi : Nat) : Interval := ⟨modIncr w lo, hi⟩

/-- `Interval::RightOpen`: `[lo, hi)` materialized closed. -/
def Interval.rightOpen (w lo hi : Nat) : Interval := ⟨lo, modDecr w hi⟩

/-- `Interval::Closed`: `[lo, hi]`. -/
def Interval.closedI (lo hi : Nat) : Interval := ⟨lo, hi⟩

/-- Modelled from the spec: per-bit known-0 / known-1 / unknown state. -/
inductive Ternary where
  | zero
  | one
  | unknown
deriving DecidableEq, Repr

abbrev TernaryVector := List Ternary

def Ternary.isKnown : Ternary → Bool
  | .unknown => false
  | _ => true

/-- `ternary_ops::BitsToTernary`: fully-known vector of the bits of `v`
(LSB first) at width `w`. -/
def bitsToTernary (v w : Nat) : TernaryVector :=
  (List.range w).map (fun i => if v.testBit i then Ternary.one else Ternary.zero)

/-- Modelled from the spec: `ternary_ops::IsKnownOne` — every bit is known
one (used on the 1-bit result of a comparison/AND). -/
def isKnownOne (t : TernaryVector) : Bool :=
  t.all (fun b => decide (b = Ternary.one))

/-- `ternary_ops::IsFullyKnown`: no unknown bit. -/
def isFullyKnown (t : TernaryVector) : Bool := t.all Ternary.isKnown

/-- All values covered by an interval set (by enumeration of the domain of the width). -/
def IntervalSet.values (s : IntervalSet) : List Nat :=
  (List.range (2 ^ s.width)).filter (fun v => s.memB v)

/-- Modelled from the spec: `interval_ops::ExtractTernaryVector` — a bit is
known iff it is identical across every value covered by the set. -/
def extractTernaryVector (s : IntervalSet) : TernaryVector :=
  (List.range s.width).map (fun i =>
    match s.values with
    | [] => Ternary.unknown
    | v :: rest =>
      if rest.all (fun u => decide (u.testBit i = v.testBit i)) then
        (if v.testBit i then Ternary.one else Ternary.zero)
      else Ternary.unknown)

/-- `RangeData`: optional ternary plus the per-leaf interval sets of one
node (leaves of the `LeafTypeTree`, flattened; a bits-typed node has one
leaf). -/
structure RangeData where
  ternary : Option TernaryVector
  intervalSet : List IntervalSet
deriving DecidableEq, Repr

/-- The `BackPropagate::result_` map: node id to `RangeData` (newest entry
first; `setRD` shadows). -/
abbrev Results := List (Nat × RangeData)

def setRD (res : Results) (n : Nat) (rd : RangeData) : Results := (n, rd) :: res

def lookupRD : Results → Nat → Option RangeData
  | [], _ => none
  | (m, rd) :: rest, n => if m = n then some rd else lookupRD rest n

/-- `result_[n]` with the default-constructed `RangeData` when the
key is absent. -/
def getRD (res : Results) (n : Nat) : RangeData :=
  (lookupRD res n).getD ⟨none, []⟩

/-- Operator tags of the nodes the back-propagation inspects. -/
inductive Op where
  | eqOp
  | neOp
  | sge
  | sgt
  | sle
  | slt
  | uge
  | ugt
  | ule
  | ult
  | andOp
  | other
deriving DecidableEq, Repr

/-- One dataflow node, one level deep: id, operator and the ids of its two
operands (node identity, i.e. C++ pointer equality, is id equality). -/
structure Node where
  id : Nat
  op : Op
  opnd0 : Nat
  opnd1 : Nat
deriving DecidableEq, Repr

/-- The eight ordered comparison operators (`cmp_ops` in `ExtractRange`). -/
def isCmpOp : Op → Bool
  | .sle | .slt | .sge | .sgt | .ule | .ult | .uge | .ugt => true
  | _ => false

/-- `low_ops` in `ExtractRange`. -/
def isLowOp : Op → Bool
  | .sge | .sgt | .uge | .ugt => true
  | _ => false

/-- `high_ops` in `ExtractRange`. -/
def isHighOp : Op → Bool
  | .sle | .slt | .ule | .ult => true
  | _ => false

/-- Modelled from the spec: `ReverseComparisonOp` — the operator `R` with
`(op L R) == ((ReverseOp op) R L)`, i.e. swap the operand order. -/
def reverseComparisonOp : Op → Option Op
  | .sge => some .sle
  | .sgt => some .slt
  | .sle => some .sge
  | .slt => some .sgt
  | .uge => some .ule
  | .ugt => some .ult
  | .ule => some .uge
  | .ult => some .ugt
  | .eqOp => some .eqOp
  | .neOp => some .neOp
  | _ => none

/-- Modelled from the spec: `InvertComparisonOp` — the logical negation of
a comparison. -/
def invertComparisonOp : Op → Option Op
  | .sge => some .slt
  | .sgt => some .sle
  | .sle => some .sgt
  | .slt => some .sge
  | .uge => some .ult
  | .ugt => some .ule
  | .ule => some .ugt
  | .ult => some .uge
  | .eqOp => some .neOp
  | .neOp => some .eqOp
  | _ => none

/-- Signed comparison? (`is_signed` in `UnifyComparison`). -/
def opIsSigned : Op → Bool
  | .sle | .slt | .sge | .sgt => true
  | _ => false

/-- Or-equals comparison? (`is_or_equals` in `UnifyComparison`). -/
def opIsOrEquals : Op → Bool
  | .ule | .uge | .sle | .sge => true
  | _ => false

/-- Less-than direction? (`is_less_than` in `UnifyComparison`). -/
def opIsLessThan : Op → Bool
  | .sle | .ule | .slt | .ult => true
  | _ => false

/-- `CanonicalRange`: normalized form of a two-comparison range check
`(low_cmp param low_value) && (high_cmp param high_value)`. -/
structure CanonicalRange where
  lowValue : Nat
  lowCmp : Op
  param : Nat
  highCmp : Op
  highValue : Nat
  lowRange : Nat
  highRange : Nat
deriving DecidableEq, Repr

/-- Port of `BackPropagate::ExtractRange`: recognize the two conjoined
comparisons as a range check over a common operand, canonicalizing the
operand order of each comparison. -/
def extractRange (e1 e2 : Node) : Option CanonicalRange :=
  if isCmpOp e1.op && isCmpOp e2.op then
    let pick : Option (Op × Op × Nat × Nat × Nat) :=
      if e1.opnd0 = e2.opnd0 then
        -- Already in canonical order.
        some (e1.op, e2.op, e1.opnd0, e1.opnd1, e2.opnd1)
      else if e1.opnd1 = e2.opnd0 then
        -- element2 in canonical order.
        match reverseComparisonOp e1.op with
        | some r => some (r, e2.op, e1.opnd1, e1.opnd0, e2.opnd1)
        | none => none
      else if e1.opnd0 = e2.opnd1 then
        -- element1 in canonical order.
        match reverseComparisonOp e2.op with
        | some r => some (e1.op, r, e1.opnd0, e1.opnd1, e2.opnd0)
        | none => none
      else if e1.opnd1 = e2.opnd1 then
        -- Both in reversed order.
        match reverseComparisonOp e1.op, reverseComparisonOp e2.op with
        | some r1, some r2 => some (r1, r2, e1.opnd1, e1.opnd0, e2.opnd0)
        | _, _ => none
      else none
    match pick with
    | none => none
    | some (o1, o2, common, c1, c2) =>
      if isLowOp o1 && isHighOp o2 then
        some ⟨c1, o1, common, o2, c2, e1.id, e2.id⟩
      else if isHighOp o1 && isLowOp o2 then
        some ⟨c2, o2, common, o1, c1, e2.id, e1.id⟩
      else none
  else none

/-- Low bound strict? (`left_is_open` in `UnifyRangeComparison`). -/
def cmpIsStrictLow (o : Op) : Bool := decide (o = Op.sgt) || decide (o = Op.ugt)

/-- High bound strict? (`right_is_open` in `UnifyRangeComparison`). -/
def cmpIsStrictHigh (o : Op) : Bool := decide (o = Op.slt) || decide (o = Op.ult)

/-- Port of `BackPropagate::UnifyRangeComparison`.  `base` gives the base
interval set of the base engine for each (bits-typed, single-leaf) node.  `none`
models a crash (dereferencing an empty optional bound). -/
def unifyRangeComparison (base : Nat → IntervalSet) (r : CanonicalRange)
    (valueIsInRange : Bool) (res : Results) : Option Results :=
  let lowI := base r.lowValue
  let highI := base r.highValue
  let baseI := base r.param
  let w := baseI.width
  match lowI.lowerBound, highI.upperBound with
  | some lo, some hi =>
    let leftOpen := cmpIsStrictLow r.lowCmp
    let rightOpen := cmpIsStrictHigh r.highCmp
    let rangeIv : Interval :=
      if leftOpen then
        (if rightOpen then Interval.openBoth w lo hi else Interval.leftOpen w lo hi)
      else
        (if rightOpen then Interval.rightOpen w lo hi else Interval.closedI lo hi)
    let rangeInterval := ((⟨w, []⟩ : IntervalSet).addInterval rangeIv).normalize
    if valueIsInRange then
      -- Value is in range: intersect with range; both comparisons are
      -- recorded as trivially known-true.
      let trueRange : RangeData :=
        ⟨some (bitsToTernary 1 1), [IntervalSet.precise 1 1]⟩
      let res1 := setRD (setRD res r.lowRange trueRange) r.highRange trueRange
      let constrained := baseI.intersect rangeInterval
      some (setRD res1 r.param
        ⟨some (extractTernaryVector constrained), [constrained]⟩)
    else
      -- Outside of range: add the inverse.
      let constrained := baseI.intersect rangeInterval.complement
      some (setRD res r.param
        ⟨some (extractTernaryVector constrained), [constrained]⟩)
  | _, _ => none

/-- Port of `BackPropagate::MaybeUnifyAnd`.  The ternary given for the AND (the
selector fact) is read from `res`; `none` models dereferencing a missing
ternary. -/
def maybeUnifyAnd (base : Nat → IntervalSet) (andId : Nat)
    (operands : List Node) (res : Results) : Option Results :=
  if operands.length ≠ 2 then some res
  else
    match operands with
    | [o1, o2] =>
      match extractRange o1 o2 with
      | some r =>
        match (getRD res andId).ternary with
        | some t => unifyRangeComparison base r (isKnownOne t) res
        | none => none
      | none => some res
    | _ => some res

/-- The restricted set computed at the tail of `UnifyLiteralComparison`:
complement the base, add the excluded interval, normalize, complement
back. -/
def uLCRestricted (base : IntervalSet) (iv : Interval) : IntervalSet :=
  ((base.complement.addInterval iv).normalize).complement

/-- Tail of `BackPropagate::UnifyLiteralComparison`: record the restricted
set for `v`, backing off to no information when the restriction is empty
(a logical contradiction / unreachable branch). -/
def uLCFinish (v : Nat) (base : IntervalSet) (iv : Interval)
    (res : Results) : Results :=
  let restricted := uLCRestricted base iv
  if restricted.intervals = [] then res
  else setRD res v ⟨some (extractTernaryVector restricted), [restricted]⟩

/-- Port of `BackPropagate::UnifyLiteralComparison` (the comparison is
already standardized to `variable <op> literal`, known true). -/
def unifyLiteralComparison (v : Nat) (base : IntervalSet) (literal : Nat)
    (isOrEquals isLessThan isSigned : Bool) (res : Results) : Results :=
  let w := base.width
  let minValue := if isSigned then 2 ^ (w - 1) else 0
  let maxValue := if isSigned then 2 ^ (w - 1) - 1 else 2 ^ w - 1
  if isLessThan then
    if isOrEquals then
      if literal = maxValue then
        -- v <= max is always true: nothing to restrict.
        res
      else uLCFinish v base ⟨modIncr w literal, maxValue⟩ res
    else uLCFinish v base ⟨literal, maxValue⟩ res
  else
    if isOrEquals then
      if literal = minValue then
        -- v >= min is always true: nothing to restrict.
        res
      else uLCFinish v base ⟨minValue, modDecr w literal⟩ res
    else uLCFinish v base ⟨minValue, literal⟩ res

/-- Port of `BackPropagate::UnifyImpreciseComparison`: deliberately a
no-op (documented future work). -/
def unifyImpreciseComparison (_lId _rId : Nat) (_lI _rI : IntervalSet)
    (res : Results) : Results := res

/-- Port of `BackPropagate::UnifyComparison`.  `none` models a
`RET_CHECK` failure or an empty-optional dereference. -/
def unifyComparison (base : Nat → IntervalSet) (cmp : Node)
    (res : Results) : Option Results :=
  if isCmpOp cmp.op then
    match (getRD res cmp.id).ternary with
    | none => none
    | some t =>
      if isFullyKnown t then
        match invertComparisonOp cmp.op with
        | none => none
        | some inv =>
          -- Standardize so we are assuming the comparison is true.
          let op := if isKnownOne t then cmp.op else inv
          let lI := base cmp.opnd0
          let rI := base cmp.opnd1
          if !lI.isPrecise && !rI.isPrecise then
            some (unifyImpreciseComparison cmp.opnd0 cmp.opnd1 lI rI res)
          else
            -- Standardize so the right side is always precise.
            let swap := lI.isPrecise
            let varId := if swap then cmp.opnd1 else cmp.opnd0
            let varI := if swap then rI else lI
            let litI := if swap then lI else rI
            let isLt := if swap then !opIsLessThan op else opIsLessThan op
            match litI.getPreciseValue with
            | none => none
            | some lit =>
              some (unifyLiteralComparison varId varI lit (opIsOrEquals op)
                isLt (opIsSigned op) res)
      else none
  else none

/-- `allPrecise` over the leaves of an interval-set tree
(`is_precise` in `UnifyExactMatch`). -/
def allPrecise (t : List IntervalSet) : Bool := t.all IntervalSet.isPrecise

/-- Port of `BackPropagate::UnifyExactMatch`.  `base` gives the base
per-leaf interval sets of the base engine, `baseTernary` its ternary for
a bits-typed node, `bits` whether the type of a node is a plain bits
type.
`none` models a `CHECK`/`RET_CHECK` failure. -/
def unifyExactMatch (base : Nat → List IntervalSet)
    (baseTernary : Nat → TernaryVector) (bits : Nat → Bool)
    (eqN : Node) (res : Results) : Option Results :=
  match eqN.op with
  | Op.eqOp | Op.neOp =>
    let a := eqN.opnd0
    let b := eqN.opnd1
    let aI := base a
    let bI := base b
    if (getRD res eqN.id).ternary =
        some (bitsToTernary (if eqN.op = Op.eqOp then 1 else 0) 1) then
      -- Case: (L == R) == TRUE / (L != R) == FALSE.
      let unified := List.zipWith IntervalSet.intersect aI bI
      if unified.any (fun s => s.intervals.isEmpty) then
        -- Unified to bottom on an element: unreachable; leave
        -- unconstrained.
        some res
      else
        let tern :=
          if bits a then some (extractTernaryVector (unified.headD ⟨0, []⟩))
          else none
        let joined : RangeData := ⟨tern, unified⟩
        some (setRD (setRD res a joined) b joined)
    else
      -- Case: (L == R) == FALSE / (L != R) == TRUE.
      if allPrecise aI || allPrecise bI then
        let precise := if allPrecise aI then a else b
        let preciseI := if allPrecise aI then aI else bI
        let imprecise := if allPrecise aI then b else a
        let impreciseI := if allPrecise aI then bI else aI
        let isB := bits precise
        let tern := if isB then some (baseTernary precise) else none
        let res1 := setRD res precise ⟨tern, preciseI⟩
        if !(allPrecise preciseI) then none
        else
          -- Punch the precise value out of the range of the imprecise operand.
          let comp2 := List.zipWith
            (fun pI cI => (cI.addInterval (pI.intervals.headD ⟨0, 0⟩)).normalize)
            preciseI (impreciseI.map IntervalSet.complement)
          let impNew := comp2.map IntervalSet.complement
          if impNew.any (fun s => s.intervals.isEmpty) then
            -- Unified to bottom on some element: unreachable; leave
            -- unconstrained.
            some res1
          else
            let tern2 :=
              if isB then some (extractTernaryVector (impNew.headD ⟨0, []⟩))
              else none
            some (setRD res1 imprecise ⟨tern2, impNew⟩)
      else
        -- Neither side precise: no information gleaned.
        some res
  | _ => none

/-- A `select` node as the analysis driver sees it: identity, selector
node, selector bit width, number of explicit cases, and whether it has a
default value. -/
structure SelectNode where
  id : Nat
  selector : Nat
  selectorWidth : Nat
  numCases : Nat
  hasDefault : Bool
deriving DecidableEq, Repr

/-- `PredicateState::ArmT`: a concrete case index or the default arm. -/
inductive ArmT where
  | index (i : Nat)
  | defaultArm
deriving DecidableEq, Repr

/-- `PredicateState`: one arm of one select node. -/
structure PredicateState where
  sel : SelectNode
  arm : ArmT
deriving DecidableEq, Repr

/-- The predicate states contributed by one select (the collection loop of `Analysis::Execute`): one per explicit case, plus the default arm when a
default value is present. -/
def statesOfSelect (s : SelectNode) : List PredicateState :=
  (List.range s.numCases).map (fun i => ⟨s, ArmT.index i⟩) ++
    (if s.hasDefault then [⟨s, ArmT.defaultArm⟩] else [])

/-- `all_states_`: every (select, arm) pair, in topological order of the
selects. -/
def allStates (selects : List SelectNode) : List PredicateState :=
  (selects.map statesOfSelect).flatten

/-- The equivalence-class key: `(selector node, arm)`. -/
abbrev EquivKey := Nat × ArmT

def psKey (p : PredicateState) : EquivKey := (p.sel.selector, p.arm)

abbrev Groups := List (EquivKey × List PredicateState)

/-- One step of `equivalences.try_emplace(key).first->second.push_back(s)`:
append the state to the bucket of its key, creating the bucket if absent. -/
def addState (gs : Groups) (p : PredicateState) : Groups :=
  match gs with
  | [] => [(psKey p, [p])]
  | (k, sts) :: rest =>
    if k = psKey p then (k, sts ++ [p]) :: rest
    else (k, sts) :: addState rest p

/-- Bucket predicate states into equivalence classes keyed by
`(selector, arm)`. -/
def groupByKey (states : List PredicateState) : Groups :=
  states.foldl addState []

/-- Per equivalence class, allocate one specialized engine in the arena
(identified by its arena index `i`) and map every state of the class to
it. -/
def assignEnginesFrom : Nat → Groups → List (PredicateState × Nat)
  | _, [] => []
  | i, (_, sts) :: rest =>
    sts.map (fun p => (p, i)) ++ assignEnginesFrom (i + 1) rest

/-- The fixpoint signal returned by `Populate`. -/
inductive ReachedFixpoint where
  | changed
  | unchanged
deriving DecidableEq, Repr

/-- Port of the engine-sharing skeleton of `Analysis::Execute` (and hence
`ContextSensitiveRangeQueryEngine::Populate`): collect all states, bucket
them into equivalence classes, allocate one cached engine per class, and
return `ReachedFixpoint::Changed` unconditionally.  The per-class range
computation (`CalculateRangeGiven`) fills the engine contents and does
not affect which states share an engine or the returned signal. -/
def executeAnalysis (selects : List SelectNode) :
    List (PredicateState × Nat) × ReachedFixpoint :=
  (assignEnginesFrom 0 (groupByKey (allStates selects)), ReachedFixpoint.changed)

/-- Lookup in the predicate-to-engine map (`one_hot_ranges_`). -/
def lookupPS : List (PredicateState × Nat) → PredicateState → Option Nat
  | [], _ => none
  | (p, i) :: rest, q => if p = q then some i else lookupPS rest q

/-- Modelled from the spec: `UBits(value, bit_count)` — an unsigned value
at a fixed width; a checked precondition failure (`none`) when the value
does not fit in the width. -/
def ubits (v w : Nat) : Option Nat := if v < 2 ^ w then some v else none

/-- Port of `Analysis::ExtractSelectorValue`: the selector fact for one
arm.  For a specific arm: the precise arm index.  For the default arm: the
interval from `cases().size() + 1` up to all-ones.  `none` models the
`UBits` `CHECK` failure when the computed bound does not fit in the
width of the selector. -/
def extractSelectorValue (s : SelectNode) (arm : ArmT) : Option RangeData :=
  let w := s.selectorWidth
  match arm with
  | ArmT.defaultArm =>
    match ubits (s.numCases + 1) w with
    | none => none
    | some lo =>
      let iset := ((⟨w, []⟩ : IntervalSet).addInterval ⟨lo, 2 ^ w - 1⟩).normalize
      some ⟨some (extractTernaryVector iset), [iset]⟩
  | ArmT.index i =>
    match ubits i w with
    | none => none
    | some v =>
      let iset := ((⟨w, []⟩ : IntervalSet).addInterval ⟨v, v⟩).normalize
      some ⟨some (bitsToTernary v w), [iset]⟩

/-- The handle returned by `SpecializeGivenPredicate`: the base-class
default (unspecialized base behavior) or the proxy over a cached
specialized engine. -/
inductive EngineHandle where
  | base
  | proxy (engineIdx : Nat)
deriving DecidableEq, Repr

/-- Port of `ContextSensitiveRangeQueryEngine::SpecializeGivenPredicate`.
`none` models the `XLS_CHECK_LE(state.size(), 1)` abort. -/
def specializeGivenPredicate (oneHot : List (PredicateState × Nat))
    (state : List PredicateState) : Option EngineHandle :=
  if state.length ≤ 1 then
    match state with
    | [] => some EngineHandle.base
    | p :: _ =>
      match lookupPS oneHot p with
      | some e => some (EngineHandle.proxy e)
      | none => some EngineHandle.base
  else none

/-! ### Concrete scenarios used by the claims -/

/-- C1 scenario: a select with 3 explicit cases and a default arm on a
2-bit selector. -/
def c1Select : SelectNode := ⟨100, 1, 2, 3, true⟩

/-- C1 scenario, widened: same select shape on a 3-bit selector. -/
def c1SelectW3 : SelectNode := ⟨101, 1, 3, 3, true⟩

/-- C3/C5 scenario base engine: node 0 is the unconstrained 8-bit `x`,
node 1 the literal 3, node 2 the literal 10; everything else is a 1-bit
boolean. -/
def scenarioBase : Nat → IntervalSet := fun n =>
  if n = 0 then IntervalSet.maximal 8
  else if n = 1 then IntervalSet.precise 8 3
  else if n = 2 then IntervalSet.precise 8 10
  else IntervalSet.maximal 1

/-- `x > 3` (node 3). -/
def cmpLoNode : Node := ⟨3, Op.ugt, 0, 1⟩

/-- `x < 10` (node 4). -/
def cmpHiNode : Node := ⟨4, Op.ult, 0, 2⟩

/-- The given for the AND node (id 5) known false. -/
def andFalseGiven : Results :=
  [(5, ⟨some (bitsToTernary 0 1), [IntervalSet.precise 1 0]⟩)]

/-- The given for the AND node (id 5) known true. -/
def andTrueGiven : Results :=
  [(5, ⟨some (bitsToTernary 1 1), [IntervalSet.precise 1 1]⟩)]

/-- C3: back-propagation of `(x > 3) && (x < 10)` known false. -/
def c3Result : Option Results :=
  maybeUnifyAnd scenarioBase 5 [cmpLoNode, cmpHiNode] andFalseGiven

/-- C5: back-propagation of `(x > 3) && (x < 10)` known true. -/
def c5Result : Option Results :=
  maybeUnifyAnd scenarioBase 5 [cmpLoNode, cmpHiNode] andTrueGiven

/-- C6 scenario base: node 0 is `a` with prior range `[0, 100]`, node 1 is
`b` with prior range `[50, 200]` (8-bit). -/
def c6Base : Nat → List IntervalSet := fun n =>
  if n = 0 then [⟨8, [⟨0, 100⟩]⟩]
  else if n = 1 then [⟨8, [⟨50, 200⟩]⟩]
  else [⟨1, [⟨0, 1⟩]⟩]

def c6BaseTernary : Nat → TernaryVector := fun _ =>
  List.replicate 8 Ternary.unknown

/-- `eq(a, b)` (node 2). -/
def c6EqNode : Node := ⟨2, Op.eqOp, 0, 1⟩

/-- The given for `eq(a, b)` known true. -/
def c6Given : Results :=
  [(2, ⟨some (bitsToTernary 1 1), [IntervalSet.precise 1 1]⟩)]

def c6Result : Option Results :=
  unifyExactMatch c6Base c6BaseTernary (fun _ => true) c6EqNode c6Given

/-- C8 witness scenario: `eq(a, b)` known true with disjoint priors
`[0, 5]` and `[10, 15]` (4-bit). -/
def c8Base : Nat → List IntervalSet := fun n =>
  if n = 0 then [⟨4, [⟨0, 5⟩]⟩]
  else if n = 1 then [⟨4, [⟨10, 15⟩]⟩]
  else [⟨1, [⟨0, 1⟩]⟩]

def c8BaseTernary : Nat → TernaryVector := fun _ =>
  List.replicate 4 Ternary.unknown

def c8EqNode : Node := ⟨2, Op.eqOp, 0, 1⟩

def c8Given : Results :=
  [(2, ⟨some (bitsToTernary 1 1), [IntervalSet.precise 1 1]⟩)]

/-- C2 counterexample states: two distinct selects sharing arm 0. -/
def c2SelA : SelectNode := ⟨10, 1, 1, 2, false⟩

def c2SelB : SelectNode := ⟨11, 2, 1, 2, false⟩

def c2StateA : PredicateState := ⟨c2SelA, ArmT.index 0⟩

def c2StateB : PredicateState := ⟨c2SelB, ArmT.index 0⟩

/-- C10 witness states. -/
def c10SelA : SelectNode := ⟨20, 3, 1, 2, false⟩

def c10SelB : SelectNode := ⟨21, 4, 1, 2, false⟩

def c10Known : PredicateState := ⟨c10SelA, ArmT.index 0⟩

def c10Unknown : PredicateState := ⟨c10SelB, ArmT.index 1⟩

/-- C7 witness: two distinct select nodes sharing one selector (node 7). -/
def c7SelA : SelectNode := ⟨30, 7, 1, 2, false⟩

def c7SelB : SelectNode := ⟨31, 7, 1, 2, false⟩

def c7StateA : PredicateState := ⟨c7SelA, ArmT.index 0⟩

def c7StateB : PredicateState := ⟨c7SelB, ArmT.index 0⟩

/-- C4 scenario function: a single select. -/
def c4Selects : List SelectNode := [⟨10, 1, 1, 2, false⟩]

/-! ### Claims -/

/-- C1: the claim says the default-arm selector fact for a select with 3
explicit cases and a default arm on a 2-bit selector is exactly the
interval `[3, 3]`.  The code computes the lower bound as
`UBits(cases().size() + 1, bit_count)`, i.e. `UBits(4, 2)`, which does not
fit in 2 bits: a `CHECK` failure (modelled as `none`), not `[3, 3]`.  On a
3-bit selector the same expression yields `[4, 7]`, wrongly omitting
selector value 3 (which also takes the default arm) — an off-by-one slip
(`cases().size() + 1` instead of `cases().size()`); the claim matches the
clear intent (the default arm covers every value not taken by an explicit
arm), so this is a code bug, not a spec error. -/
theorem C1_default_arm_selector_fact_bug :
    extractSelectorValue c1Select ArmT.defaultArm = none ∧
    (extractSelectorValue c1SelectW3 ArmT.defaultArm).map
        (fun rd => rd.intervalSet) = some [⟨3, [⟨4, 7⟩]⟩] ∧
    some [(⟨3, [⟨4, 7⟩]⟩ : IntervalSet)] ≠
      some [(⟨3, [⟨3, 7⟩]⟩ : IntervalSet)] := by
  refine ⟨rfl, rfl, by decide⟩

/-- C2 counterexample: the claim says a multi-element predicate-state set
degrades to the unspecialized base behavior (a working handle).  The code
instead hits `XLS_CHECK_LE(state.size(), 1)` and aborts (modelled as
`none`): no handle of any kind is returned. -/
theorem C2_multi_element_aborts :
    specializeGivenPredicate [] [c2StateA, c2StateB] = none ∧
    (none : Option EngineHandle) ≠ some EngineHandle.base := by
  refine ⟨rfl, by decide⟩

/-- C2 amended: an empty set returns the base-class default (unspecialized
base behavior); a singleton whose state is recognized returns the cached
proxy for its equivalence class; a set with two or more elements is a
checked precondition violation (`XLS_CHECK_LE(state.size(), 1)` aborts)
rather than degrading to base behavior. -/
theorem C2_specialize_characterization
    (oneHot : List (PredicateState × Nat)) (state : List PredicateState) :
    (state = [] → specializeGivenPredicate oneHot state = some EngineHandle.base) ∧
    (∀ p e, state = [p] → lookupPS oneHot p = some e →
      specializeGivenPredicate oneHot state = some (EngineHandle.proxy e)) ∧
    (2 ≤ state.length → specializeGivenPredicate oneHot state = none) := by
  refine ⟨?_, ?_, ?_⟩
  · rintro rfl
    rfl
  · rintro p e rfl h
    simp [specializeGivenPredicate, h]
  · intro h
    have h1 : ¬ state.length ≤ 1 := by omega
    simp [specializeGivenPredicate, h1]

/-- C2 witness: the characterization applied at concrete inputs. -/
theorem C2_specialize_characterization_witness :
    specializeGivenPredicate [(c2StateA, 0)] [] = some EngineHandle.base ∧
    specializeGivenPredicate [(c2StateA, 0)] [c2StateA] =
      some (EngineHandle.proxy 0) ∧
    specializeGivenPredicate [(c2StateA, 0)] [c2StateA, c2StateB] = none :=
  ⟨(C2_specialize_characterization [(c2StateA, 0)] []).1 rfl,
   (C2_specialize_characterization [(c2StateA, 0)] [c2StateA]).2.1
     c2StateA 0 rfl (by decide),
   (C2_specialize_characterization [(c2StateA, 0)] [c2StateA, c2StateB]).2.2
     (by decide)⟩

/-- C3 counterexample: the claim says that after the AND of `(x > 3)` and
`(x < 10)` is back-propagated as known false, `x` remains unconstrained
(full 8-bit range, no narrowing).  In fact `UnifyRangeComparison` takes
its `value_is_in_range == false` branch and intersects the range of `x` with
the complement of `[4, 9]`: an entry is recorded for `x` and it is not the
full range. -/
theorem C3_and_known_false_narrows :
    (c3Result.map (fun res => (lookupRD res 0).map (fun rd => rd.intervalSet))) ≠
      some (some [IntervalSet.maximal 8]) ∧
    (c3Result.map (fun res => lookupRD res 0)) ≠ some none := by
  refine ⟨by decide, by decide⟩

/-- C3 amended: after back-propagating that the 2-operand AND of
`(x > 3)` and `(x < 10)` is known false, the engine does not crash and
soundly narrows `x` to the complement-restricted set
`[0, 3] ∪ [10, 255]` (the prior full range minus `[4, 9]`), rather than
leaving `x` unconstrained. -/
theorem C3_and_known_false_complement :
    (c3Result.map (fun res => (lookupRD res 0).map (fun rd => rd.intervalSet))) =
      some (some [⟨8, [⟨0, 3⟩, ⟨10, 255⟩]⟩]) := by
  rfl

/-- C4 counterexample: the claim says a second `Populate` call on an
unchanged function reports an `Unchanged` fixpoint result.
`Analysis::Execute` returns `ReachedFixpoint::Changed` unconditionally, so
a repeat run over the same function also reports `Changed`. -/
theorem C4_second_populate_not_unchanged :
    (executeAnalysis c4Selects).2 = ReachedFixpoint.changed ∧
    ReachedFixpoint.changed ≠ ReachedFixpoint.unchanged := by
  refine ⟨rfl, by decide⟩

/-- C4 amended: `Populate` (via `Analysis::Execute`) reports `Changed` on
every successful run, regardless of previous runs; it never reports
`Unchanged`. -/
theorem C4_populate_always_changed (selects : List SelectNode) :
    (executeAnalysis selects).2 = ReachedFixpoint.changed := rfl

/-- C5: after back-propagating that the AND of `(x > 3)` and `(x < 10)`
is known true, the derived interval set of `x` is exactly the single interval
`[4, 9]`, and both comparison nodes are recorded as known-true (ternary
known one, precise 1-bit value 1). -/
theorem C5_and_known_true_range :
    (c5Result.map (fun res =>
      ((lookupRD res 0).map (fun rd => rd.intervalSet),
        lookupRD res 3, lookupRD res 4))) =
      some (some [⟨8, [⟨4, 9⟩]⟩],
        some ⟨some [Ternary.one], [IntervalSet.precise 1 1]⟩,
        some ⟨some [Ternary.one], [IntervalSet.precise 1 1]⟩) := by
  rfl

/-- C6: back-propagating `eq(a, b)` known true with priors `[0, 100]` and
`[50, 200]` records the element-wise intersection `[50, 100]` for both
operands. -/
theorem C6_eq_known_true_intersection :
    (c6Result.map (fun res =>
      ((lookupRD res 0).map (fun rd => rd.intervalSet),
        (lookupRD res 1).map (fun rd => rd.intervalSet)))) =
      some (some [⟨8, [⟨50, 100⟩]⟩], some [⟨8, [⟨50, 100⟩]⟩]) := by
  rfl

/-- C8: a back-propagation intersection that comes out empty (bottom, a
logical contradiction) makes the operation succeed while recording no fact
for the affected node: in `UnifyExactMatch` (Eq known true / Ne known
false) the whole result map is returned unchanged when any element-wise
intersection is empty, and in the literal-comparison tail the variable is
left unrecorded when the restricted set is empty. -/
theorem C8_empty_intersection_backs_off (base : Nat → List IntervalSet)
    (bt : Nat → TernaryVector) (bits : Nat → Bool) (eqN : Node)
    (res res2 : Results) (v : Nat) (bs : IntervalSet) (iv : Interval) :
    ((eqN.op = Op.eqOp ∨ eqN.op = Op.neOp) →
      (getRD res eqN.id).ternary =
        some (bitsToTernary (if eqN.op = Op.eqOp then 1 else 0) 1) →
      (List.zipWith IntervalSet.intersect (base eqN.opnd0) (base eqN.opnd1)).any
        (fun s => s.intervals.isEmpty) = true →
      unifyExactMatch base bt bits eqN res = some res) ∧
    ((uLCRestricted bs iv).intervals = [] → uLCFinish v bs iv res2 = res2) := by
  constructor
  · intro hop htern hempty
    rcases hop with h | h <;>
      simp [unifyExactMatch, h, htern, hempty]
  · intro h
    simp [uLCFinish, h]

/-- C8 witness: the back-off applied to `eq(a, b)` known true with the
disjoint priors `[0, 5]` and `[10, 15]`, and to the literal comparison
`v < 0` over an unconstrained 8-bit `v`. -/
theorem C8_empty_intersection_backs_off_witness :
    unifyExactMatch c8Base c8BaseTernary (fun _ => true) c8EqNode c8Given =
      some c8Given ∧
    uLCFinish 0 (IntervalSet.maximal 8) ⟨0, 255⟩ [] = [] :=
  ⟨(C8_empty_intersection_backs_off c8Base c8BaseTernary (fun _ => true)
      c8EqNode c8Given [] 0 (IntervalSet.maximal 8) ⟨0, 255⟩).1
      (Or.inl rfl) (by decide) (by decide),
   (C8_empty_intersection_backs_off c8Base c8BaseTernary (fun _ => true)
      c8EqNode c8Given [] 0 (IntervalSet.maximal 8) ⟨0, 255⟩).2
      (by decide)⟩

/-- C10: a singleton predicate-state set whose state has no cached engine
(e.g. before `Populate`, or a state not collected from the analyzed
function) does not fail: the call returns the same base-class default
handle as the empty-set call, never a null handle. -/
theorem C10_unrecognized_singleton_returns_base
    (oneHot : List (PredicateState × Nat)) (p : PredicateState)
    (h : lookupPS oneHot p = none) :
    specializeGivenPredicate oneHot [p] = specializeGivenPredicate oneHot [] ∧
    specializeGivenPredicate oneHot [p] = some EngineHandle.base := by
  simp [specializeGivenPredicate, h]

/-- C10 witness: applied to a map that caches one state and a query for a
different state. -/
theorem C10_unrecognized_singleton_returns_base_witness :
    specializeGivenPredicate [(c10Known, 0)] [c10Unknown] =
      specializeGivenPredicate [(c10Known, 0)] [] ∧
    specializeGivenPredicate [(c10Known, 0)] [c10Unknown] =
      some EngineHandle.base :=
  C10_unrecognized_singleton_returns_base [(c10Known, 0)] c10Unknown (by decide)

/-! ### Equivalence-class bucketing lemmas (for C7) -/

/-- Keys of a group list. -/
def keysOf (gs : Groups) : List EquivKey := gs.map (fun g => g.1)

theorem addState_found {k0 : EquivKey} {sts0 : List PredicateState}
    {rest : Groups} {p : PredicateState} (hk : k0 = psKey p) :
    addState ((k0, sts0) :: rest) p = (k0, sts0 ++ [p]) :: rest := by
  simp [addState, hk]

theorem addState_notfound {k0 : EquivKey} {sts0 : List PredicateState}
    {rest : Groups} {p : PredicateState} (hk : ¬ k0 = psKey p) :
    addState ((k0, sts0) :: rest) p = (k0, sts0) :: addState rest p := by
  simp [addState, hk]

theorem mem_keysOf_addState {gs : Groups} {p : PredicateState} {k : EquivKey}
    (h : k ∈ keysOf (addState gs p)) : k ∈ keysOf gs ∨ k = psKey p := by
  induction gs with
  | nil =>
    simp [addState, keysOf] at h
    exact Or.inr h
  | cons g rest ih =>
    obtain ⟨k0, sts0⟩ := g
    by_cases hk : k0 = psKey p
    · rw [addState_found hk] at h
      simp only [keysOf, List.map_cons, List.mem_cons] at h ⊢
      exact Or.inl h
    · rw [addState_notfound hk] at h
      simp only [keysOf, List.map_cons, List.mem_cons] at h ⊢
      rcases h with h | h
      · exact Or.inl (Or.inl h)
      · rcases ih h with h2 | h2
        · exact Or.inl (Or.inr h2)
        · exact Or.inr h2

theorem nodup_keysOf_addState {gs : Groups} {p : PredicateState}
    (h : (keysOf gs).Nodup) : (keysOf (addState gs p)).Nodup := by
  induction gs with
  | nil => simp [addState, keysOf]
  | cons g rest ih =>
    obtain ⟨k0, sts0⟩ := g
    have h2 : k0 ∉ keysOf rest ∧ (keysOf rest).Nodup := by
      rw [show keysOf ((k0, sts0) :: rest) = k0 :: keysOf rest from rfl] at h
      exact List.nodup_cons.mp h
    by_cases hk : k0 = psKey p
    · rw [addState_found hk]
      exact List.nodup_cons.mpr h2
    · rw [addState_notfound hk]
      refine List.nodup_cons.mpr ⟨?_, ih h2.2⟩
      intro hmem
      rcases mem_keysOf_addState hmem with h3 | h3
      · exact h2.1 h3
      · exact hk h3

/-- Every state stored in a bucket has the key of that bucket. -/
def KeySound (gs : Groups) : Prop :=
  ∀ g ∈ gs, ∀ q ∈ g.2, psKey q = g.1

theorem keySound_addState {gs : Groups} {p : PredicateState}
    (h : KeySound gs) : KeySound (addState gs p) := by
  induction gs with
  | nil =>
    intro g hg q hq
    simp only [addState, List.mem_singleton] at hg
    subst hg
    simp only [List.mem_singleton] at hq
    subst hq
    rfl
  | cons g0 rest ih =>
    obtain ⟨k0, sts0⟩ := g0
    have h0 : ∀ q ∈ sts0, psKey q = k0 := fun q hq => h ⟨k0, sts0⟩ (by simp) q hq
    have hrest : KeySound rest := fun g hg q hq => h g (by simp [hg]) q hq
    by_cases hk : k0 = psKey p
    · rw [addState_found hk]
      intro g hg q hq
      rcases List.mem_cons.mp hg with hg | hg
      · subst hg
        rcases List.mem_append.mp hq with hq | hq
        · exact h0 q hq
        · rw [List.mem_singleton.mp hq]
          exact hk.symm
      · exact hrest g hg q hq
    · rw [addState_notfound hk]
      intro g hg q hq
      rcases List.mem_cons.mp hg with hg | hg
      · subst hg
        exact h0 q hq
      · exact ih hrest g hg q hq

theorem keySound_foldl {states : List PredicateState} :
    ∀ {gs : Groups}, KeySound gs → KeySound (states.foldl addState gs) := by
  induction states with
  | nil => intro gs h; simpa using h
  | cons s rest ih =>
    intro gs h
    simpa using ih (keySound_addState h)

theorem nodup_keysOf_foldl {states : List PredicateState} :
    ∀ {gs : Groups}, (keysOf gs).Nodup →
      (keysOf (states.foldl addState gs)).Nodup := by
  induction states with
  | nil => intro gs h; simpa using h
  | cons s rest ih =>
    intro gs h
    simpa using ih (nodup_keysOf_addState h)

/-- A state already bucketed stays bucketed (under the same key) after
adding another state. -/
theorem covered_addState {gs : Groups} {p q : PredicateState} {k : EquivKey}
    {sts : List PredicateState} (hg : (k, sts) ∈ gs) (hq : q ∈ sts) :
    ∃ sts2, (k, sts2) ∈ addState gs p ∧ q ∈ sts2 := by
  induction gs with
  | nil => simp at hg
  | cons g0 rest ih =>
    obtain ⟨k0, sts0⟩ := g0
    by_cases hk : k0 = psKey p
    · rw [addState_found hk]
      rcases List.mem_cons.mp hg with hg | hg
      · have e1 : k = k0 := congrArg Prod.fst hg
        have e2 : sts = sts0 := congrArg Prod.snd hg
        exact ⟨sts0 ++ [p], e1 ▸ List.mem_cons_self _ _,
          List.mem_append.mpr (Or.inl (e2 ▸ hq))⟩
      · exact ⟨sts, List.mem_cons_of_mem _ hg, hq⟩
    · rw [addState_notfound hk]
      rcases List.mem_cons.mp hg with hg | hg
      · have e1 : k = k0 := congrArg Prod.fst hg
        have e2 : sts = sts0 := congrArg Prod.snd hg
        exact ⟨sts0, e1 ▸ List.mem_cons_self _ _, e2 ▸ hq⟩
      · obtain ⟨sts2, h1, h2⟩ := ih hg
        exact ⟨sts2, List.mem_cons_of_mem _ h1, h2⟩

/-- The state just added is bucketed under its own key. -/
theorem covered_addState_self (gs : Groups) (p : PredicateState) :
    ∃ sts, (psKey p, sts) ∈ addState gs p ∧ p ∈ sts := by
  induction gs with
  | nil => exact ⟨[p], by simp [addState], by simp⟩
  | cons g0 rest ih =>
    obtain ⟨k0, sts0⟩ := g0
    by_cases hk : k0 = psKey p
    · refine ⟨sts0 ++ [p], ?_, by simp⟩
      rw [addState_found hk, ← hk]
      exact List.mem_cons_self _ _
    · obtain ⟨sts, h1, h2⟩ := ih
      refine ⟨sts, ?_, h2⟩
      rw [addState_notfound hk]
      exact List.mem_cons_of_mem _ h1

theorem covered_foldl {states : List PredicateState} :
    ∀ {gs : Groups} {p : PredicateState},
      (p ∈ states ∨ ∃ sts, (psKey p, sts) ∈ gs ∧ p ∈ sts) →
      ∃ sts, (psKey p, sts) ∈ states.foldl addState gs ∧ p ∈ sts := by
  induction states with
  | nil =>
    intro gs p h
    simpa using h.resolve_left (by simp)
  | cons s rest ih =>
    intro gs p h
    simp only [List.foldl_cons]
    rcases h with h | ⟨sts, h1, h2⟩
    · rcases List.mem_cons.mp h with h | h
      · subst h
        obtain ⟨sts, h1, h2⟩ := covered_addState_self gs p
        exact ih (Or.inr ⟨sts, h1, h2⟩)
      · exact ih (Or.inl h)
    · obtain ⟨sts2, h3, h4⟩ := covered_addState (p := s) h1 h2
      exact ih (Or.inr ⟨sts2, h3, h4⟩)

theorem lookupPS_map_mem {sts : List PredicateState} {p : PredicateState}
    (i : Nat) (tail : List (PredicateState × Nat)) (h : p ∈ sts) :
    lookupPS (sts.map (fun q => (q, i)) ++ tail) p = some i := by
  induction sts with
  | nil => simp at h
  | cons s rest ih =>
    rcases List.mem_cons.mp h with h | h
    · subst h
      simp [lookupPS]
    · simp only [List.map_cons, List.cons_append, lookupPS]
      by_cases hs : s = p
      · simp [hs]
      · simp [hs, ih h]

theorem lookupPS_map_not_mem {sts : List PredicateState} {p : PredicateState}
    (i : Nat) (tail : List (PredicateState × Nat)) (h : p ∉ sts) :
    lookupPS (sts.map (fun q => (q, i)) ++ tail) p = lookupPS tail p := by
  induction sts with
  | nil => simp
  | cons s rest ih =>
    have hs : s ≠ p := fun he => h (by simp [he])
    simp only [List.map_cons, List.cons_append, lookupPS, if_neg hs]
    exact ih (fun hm => h (by simp [hm]))

/-- In the engine map built from disjoint, key-sound buckets, any two
states of the same bucket key get the same arena index. -/
theorem lookupPS_assign_eq {gs : Groups} :
    ∀ {i : Nat} {p q : PredicateState},
      KeySound gs → (keysOf gs).Nodup → psKey p = psKey q →
      (∃ sts, (psKey p, sts) ∈ gs ∧ p ∈ sts) →
      (∃ sts, (psKey q, sts) ∈ gs ∧ q ∈ sts) →
      lookupPS (assignEnginesFrom i gs) p = lookupPS (assignEnginesFrom i gs) q ∧
        (lookupPS (assignEnginesFrom i gs) p).isSome = true := by
  induction gs with
  | nil =>
    intro i p q _ _ _ hp _
    obtain ⟨sts, h1, _⟩ := hp
    simp at h1
  | cons g0 rest ih =>
    intro i p q hsound hnodup hkey hp hq
    obtain ⟨k0, sts0⟩ := g0
    have hsound0 : ∀ r ∈ sts0, psKey r = k0 := fun r hr =>
      hsound ⟨k0, sts0⟩ (by simp) r hr
    have hsoundrest : KeySound rest := fun g hg r hr =>
      hsound g (by simp [hg]) r hr
    have hsplit : k0 ∉ keysOf rest ∧ (keysOf rest).Nodup := by
      rw [show keysOf ((k0, sts0) :: rest) = k0 :: keysOf rest from rfl] at hnodup
      exact List.nodup_cons.mp hnodup
    by_cases hk : psKey p = k0
    · -- Both states live in the head bucket.
      have hqk : psKey q = k0 := hkey.symm.trans hk
      have hpin : p ∈ sts0 := by
        obtain ⟨sts, h1, h2⟩ := hp
        rcases List.mem_cons.mp h1 with h | h
        · have e2 : sts = sts0 := congrArg Prod.snd h
          exact e2 ▸ h2
        · have hmem : psKey p ∈ keysOf rest :=
            List.mem_map.mpr ⟨(psKey p, sts), h, rfl⟩
          exact absurd (hk ▸ hmem) hsplit.1
      have hqin : q ∈ sts0 := by
        obtain ⟨sts, h1, h2⟩ := hq
        rcases List.mem_cons.mp h1 with h | h
        · have e2 : sts = sts0 := congrArg Prod.snd h
          exact e2 ▸ h2
        · have hmem : psKey q ∈ keysOf rest :=
            List.mem_map.mpr ⟨(psKey q, sts), h, rfl⟩
          exact absurd (hqk ▸ hmem) hsplit.1
      simp only [assignEnginesFrom]
      rw [lookupPS_map_mem i _ hpin, lookupPS_map_mem i _ hqin]
      simp
    · -- Both states live further down.
      have hqk : ¬ psKey q = k0 := fun he => hk (hkey.trans he)
      have hpout : p ∉ sts0 := fun hin => hk (hsound0 p hin)
      have hqout : q ∉ sts0 := fun hin => hqk (hsound0 q hin)
      have hprest : ∃ sts, (psKey p, sts) ∈ rest ∧ p ∈ sts := by
        obtain ⟨sts, h1, h2⟩ := hp
        rcases List.mem_cons.mp h1 with h | h
        · exact absurd (congrArg Prod.fst h) hk
        · exact ⟨sts, h, h2⟩
      have hqrest : ∃ sts, (psKey q, sts) ∈ rest ∧ q ∈ sts := by
        obtain ⟨sts, h1, h2⟩ := hq
        rcases List.mem_cons.mp h1 with h | h
        · exact absurd (congrArg Prod.fst h) hqk
        · exact ⟨sts, h, h2⟩
      simp only [assignEnginesFrom]
      rw [lookupPS_map_not_mem i _ hpout, lookupPS_map_not_mem i _ hqout]
      exact ih hsoundrest hsplit.2 hkey hprest hqrest

/-- C7: after `Populate`, any two predicate states with the same
`(selector node, arm)` key — including states from two distinct select
nodes sharing one selector — are mapped to the same cached specialized
engine (same arena index, the model of pointer equality), and the engine
exists. -/
theorem C7_equivalence_class_sharing (selects : List SelectNode)
    (p q : PredicateState) (hp : p ∈ allStates selects)
    (hq : q ∈ allStates selects) (hkey : psKey p = psKey q) :
    lookupPS (executeAnalysis selects).1 p =
      lookupPS (executeAnalysis selects).1 q ∧
    (lookupPS (executeAnalysis selects).1 p).isSome = true := by
  have hsound : KeySound (groupByKey (allStates selects)) :=
    keySound_foldl (by intro g hg; simp at hg)
  have hnodup : (keysOf (groupByKey (allStates selects))).Nodup :=
    nodup_keysOf_foldl (by simp [keysOf])
  have hpc : ∃ sts, (psKey p, sts) ∈ groupByKey (allStates selects) ∧ p ∈ sts :=
    covered_foldl (Or.inl hp)
  have hqc : ∃ sts, (psKey q, sts) ∈ groupByKey (allStates selects) ∧ q ∈ sts :=
    covered_foldl (Or.inl hq)
  exact lookupPS_assign_eq hsound hnodup hkey hpc hqc

/-- C7 witness: two distinct selects (ids 30 and 31) sharing selector node
7; their arm-0 states map to the same cached engine. -/
theorem C7_equivalence_class_sharing_witness :
    lookupPS (executeAnalysis [c7SelA, c7SelB]).1 c7StateA =
      lookupPS (executeAnalysis [c7SelA, c7SelB]).1 c7StateB ∧
    (lookupPS (executeAnalysis [c7SelA, c7SelB]).1 c7StateA).isSome = true :=
  C7_equivalence_class_sharing [c7SelA, c7SelB] c7StateA c7StateB
    (by decide) (by decide) (by decide)

/-! ### Semantic correctness of the interval-set model (for C9) -/

/-- Propositional membership mirror of `Interval.memB`. -/
def Interval.Mem (i : Interval) (v : Nat) : Prop :=
  if i.lo ≤ i.hi then i.lo ≤ v ∧ v ≤ i.hi else (i.lo ≤ v ∨ v ≤ i.hi)

/-- Propositional membership mirror of `memList`. -/
def MemL (l : List Interval) (v : Nat) : Prop := ∃ i ∈ l, i.Mem v

theorem memB_iff_Mem {i : Interval} {v : Nat} : i.memB v = true ↔ i.Mem v := by
  unfold Interval.memB Interval.Mem
  split <;> simp

theorem memList_iff_MemL {l : List Interval} {v : Nat} :
    memList l v = true ↔ MemL l v := by
  simp [memList, List.any_eq_true, MemL, memB_iff_Mem]

theorem MemL_nil {v : Nat} : ¬ MemL [] v := by simp [MemL]

theorem MemL_cons {i : Interval} {l : List Interval} {v : Nat} :
    MemL (i :: l) v ↔ i.Mem v ∨ MemL l v := by simp [MemL]

theorem MemL_append {l1 l2 : List Interval} {v : Nat} :
    MemL (l1 ++ l2) v ↔ MemL l1 v ∨ MemL l2 v := by
  simp [MemL, List.mem_append]
  constructor
  · rintro ⟨i, h1 | h1, h2⟩
    · exact Or.inl ⟨i, h1, h2⟩
    · exact Or.inr ⟨i, h1, h2⟩
  · rintro (⟨i, h1, h2⟩ | ⟨i, h1, h2⟩)
    · exact ⟨i, Or.inl h1, h2⟩
    · exact ⟨i, Or.inr h1, h2⟩

theorem Mem_proper {i : Interval} {v : Nat} (h : i.lo ≤ i.hi) :
    i.Mem v ↔ (i.lo ≤ v ∧ v ≤ i.hi) := by
  unfold Interval.Mem
  rw [if_pos h]

/-- All intervals of a list are proper. -/
def properL (l : List Interval) : Prop := ∀ i ∈ l, i.lo ≤ i.hi

/-- All interval endpoints are at most `M`. -/
def boundedL (M : Nat) (l : List Interval) : Prop :=
  ∀ i ∈ l, i.lo ≤ M ∧ i.hi ≤ M

theorem expandImproper_spec (w : Nat) (l : List Interval)
    (hb : boundedL (2 ^ w - 1) l) :
    properL (expandImproper w l) ∧ boundedL (2 ^ w - 1) (expandImproper w l) ∧
      ∀ v, v ≤ 2 ^ w - 1 → (MemL (expandImproper w l) v ↔ MemL l v) := by
  induction l with
  | nil => refine ⟨by simp [properL, expandImproper], by simp [boundedL, expandImproper], by simp [expandImproper]⟩
  | cons i rest ih =>
    have hbi := hb i (by simp)
    have hbrest : boundedL (2 ^ w - 1) rest := fun j hj => hb j (by simp [hj])
    obtain ⟨hp, hb2, hm⟩ := ih hbrest
    by_cases him : i.isImproper
    · have him2 : i.hi < i.lo := by simpa [Interval.isImproper] using him
      rw [show expandImproper w (i :: rest) =
        ⟨0, i.hi⟩ :: ⟨i.lo, 2 ^ w - 1⟩ :: expandImproper w rest from by
          simp [expandImproper, him]]
      refine ⟨?_, ?_, ?_⟩
      · intro j hj
        rcases List.mem_cons.mp hj with h | hj
        · subst h; simp
        rcases List.mem_cons.mp hj with h | hj
        · subst h; exact hbi.1
        · exact hp j hj
      · intro j hj
        rcases List.mem_cons.mp hj with h | hj
        · subst h; exact ⟨Nat.zero_le _, hbi.2⟩
        rcases List.mem_cons.mp hj with h | hj
        · subst h; exact ⟨hbi.1, le_refl _⟩
        · exact hb2 j hj
      · intro v hv
        have e1 : Interval.Mem ⟨0, i.hi⟩ v ↔ v ≤ i.hi := by
          simp [Interval.Mem]
        have e2 : Interval.Mem ⟨i.lo, 2 ^ w - 1⟩ v ↔
            (i.lo ≤ v ∧ v ≤ 2 ^ w - 1) := by
          simp [Interval.Mem, hbi.1]
        have e3 : i.Mem v ↔ (i.lo ≤ v ∨ v ≤ i.hi) := by
          simp [Interval.Mem, show ¬ i.lo ≤ i.hi from by omega]
        rw [MemL_cons, MemL_cons, MemL_cons, hm v hv, e1, e2, e3]
        constructor
        · rintro (h | (⟨h1, h2⟩ | h))
          · exact Or.inl (Or.inr h)
          · exact Or.inl (Or.inl h1)
          · exact Or.inr h
        · rintro ((h | h) | h)
          · exact Or.inr (Or.inl ⟨h, hv⟩)
          · exact Or.inl h
          · exact Or.inr (Or.inr h)
    · have him2 : i.lo ≤ i.hi := by
        simp [Interval.isImproper] at him
        omega
      rw [show expandImproper w (i :: rest) = i :: expandImproper w rest from by
        simp [expandImproper, him]]
      refine ⟨?_, ?_, ?_⟩
      · intro j hj
        rcases List.mem_cons.mp hj with h | hj
        · subst h; exact him2
        · exact hp j hj
      · intro j hj
        rcases List.mem_cons.mp hj with h | hj
        · subst h; exact hbi
        · exact hb2 j hj
      · intro v hv
        rw [MemL_cons, MemL_cons, hm v hv]

theorem mem_insertByLo {i j : Interval} {l : List Interval}
    (h : j ∈ insertByLo i l) : j = i ∨ j ∈ l := by
  induction l with
  | nil => simpa [insertByLo] using h
  | cons a rest ih =>
    unfold insertByLo at h
    split at h
    · rcases List.mem_cons.mp h with h | h
      · exact Or.inl h
      · exact Or.inr h
    · rcases List.mem_cons.mp h with h | h
      · exact Or.inr (by simp [h])
      · rcases ih h with h | h
        · exact Or.inl h
        · exact Or.inr (by simp [h])

theorem MemL_insertByLo {i : Interval} {l : List Interval} {v : Nat} :
    MemL (insertByLo i l) v ↔ i.Mem v ∨ MemL l v := by
  induction l with
  | nil => simp [insertByLo, MemL_cons, MemL_nil]
  | cons a rest ih =>
    unfold insertByLo
    split
    · rw [MemL_cons, MemL_cons]
    · rw [MemL_cons, ih, MemL_cons]
      tauto

theorem sorted_insertByLo {i : Interval} {l : List Interval}
    (h : List.Pairwise (fun a b => a.lo ≤ b.lo) l) :
    List.Pairwise (fun a b => a.lo ≤ b.lo) (insertByLo i l) := by
  induction l with
  | nil => simp [insertByLo]
  | cons a rest ih =>
    obtain ⟨ha, hrest⟩ := List.pairwise_cons.mp h
    unfold insertByLo
    split
    · refine List.pairwise_cons.mpr ⟨?_, h⟩
      intro b hb
      rcases List.mem_cons.mp hb with hb | hb
      · subst hb; omega
      · have := ha b hb
        omega
    · refine List.pairwise_cons.mpr ⟨?_, ih hrest⟩
      intro b hb
      rcases mem_insertByLo hb with hb | hb
      · subst hb; omega
      · exact ha b hb

theorem mem_sortByLo {j : Interval} {l : List Interval}
    (h : j ∈ sortByLo l) : j ∈ l := by
  induction l with
  | nil => simp [sortByLo] at h
  | cons a rest ih =>
    unfold sortByLo at h
    rcases mem_insertByLo h with h | h
    · simp [h]
    · simp [ih h]

theorem MemL_sortByLo {l : List Interval} {v : Nat} :
    MemL (sortByLo l) v ↔ MemL l v := by
  induction l with
  | nil => simp [sortByLo]
  | cons a rest ih =>
    unfold sortByLo
    rw [MemL_insertByLo, ih, MemL_cons]

theorem sorted_sortByLo (l : List Interval) :
    List.Pairwise (fun a b => a.lo ≤ b.lo) (sortByLo l) := by
  induction l with
  | nil => simp [sortByLo]
  | cons a rest ih =>
    unfold sortByLo
    exact sorted_insertByLo ih

theorem mergeInto_spec (M : Nat) :
    ∀ (l : List Interval) (a : Interval),
      (∀ x ∈ l, a.lo ≤ x.lo) → List.Pairwise (fun x y => x.lo ≤ y.lo) l →
      a.lo ≤ a.hi → properL l → a.hi ≤ M → (∀ x ∈ l, x.hi ≤ M) →
      List.Pairwise (fun x y => x.hi + 1 < y.lo) (mergeInto a l) ∧
        properL (mergeInto a l) ∧
        (∀ x ∈ mergeInto a l, x.hi ≤ M) ∧
        (∀ v, MemL (mergeInto a l) v ↔ a.Mem v ∨ MemL l v) ∧
        (∀ x ∈ mergeInto a l, a.lo ≤ x.lo) := by
  intro l
  induction l with
  | nil =>
    intro a _ _ hpa _ hba _
    refine ⟨by simp [mergeInto], ?_, ?_, ?_, ?_⟩
    · intro x hx
      have hx2 : x = a := by
        simpa [mergeInto] using hx
      subst hx2
      exact hpa
    · intro x hx
      have hx2 : x = a := by
        simpa [mergeInto] using hx
      subst hx2
      exact hba
    · intro v
      simp [mergeInto, MemL_cons, MemL_nil]
    · intro x hx
      have hx2 : x = a := by
        simpa [mergeInto] using hx
      subst hx2
      exact le_refl _
  | cons b rest ih =>
    intro a hfirst hsorted hpa hpl hba hbl
    obtain ⟨hb1, hsorted2⟩ := List.pairwise_cons.mp hsorted
    have hpb : b.lo ≤ b.hi := hpl b (by simp)
    have hplrest : properL rest := fun x hx => hpl x (by simp [hx])
    have hblrest : ∀ x ∈ rest, x.hi ≤ M := fun x hx => hbl x (by simp [hx])
    have hab : a.lo ≤ b.lo := hfirst b (by simp)
    by_cases hmerge : b.lo ≤ a.hi + 1
    · rw [show mergeInto a (b :: rest) =
        mergeInto ⟨a.lo, max a.hi b.hi⟩ rest from by simp [mergeInto, hmerge]]
      obtain ⟨s1, s2, s3, s4, s5⟩ := ih ⟨a.lo, max a.hi b.hi⟩
        (fun x hx => hb1 x hx |> fun h => by simp; omega)
        hsorted2 (by simp; omega) hplrest
        (by simp; exact ⟨hba, hbl b (by simp)⟩) hblrest
      refine ⟨s1, s2, s3, ?_, s5⟩
      intro v
      rw [s4 v, MemL_cons]
      have hm : Interval.Mem ⟨a.lo, max a.hi b.hi⟩ v ↔ a.Mem v ∨ b.Mem v := by
        rw [Mem_proper (by simp; omega), Mem_proper hpa, Mem_proper hpb]
        simp
        omega
      rw [hm]
      tauto
    · rw [show mergeInto a (b :: rest) = a :: mergeInto b rest from by
        simp [mergeInto, hmerge]]
      obtain ⟨s1, s2, s3, s4, s5⟩ := ih b
        (fun x hx => hb1 x hx) hsorted2 hpb hplrest (hbl b (by simp)) hblrest
      refine ⟨?_, ?_, ?_, ?_, ?_⟩
      · refine List.pairwise_cons.mpr ⟨?_, s1⟩
        intro x hx
        have := s5 x hx
        omega
      · intro x hx
        rcases List.mem_cons.mp hx with h | h
        · subst h; exact hpa
        · exact s2 x h
      · intro x hx
        rcases List.mem_cons.mp hx with h | h
        · subst h; exact hba
        · exact s3 x h
      · intro v
        rw [MemL_cons, s4 v, MemL_cons]
      · intro x hx
        rcases List.mem_cons.mp hx with h | h
        · subst h; exact le_refl _
        · have := s5 x h
          omega

theorem normalize_spec (s : IntervalSet)
    (hb : boundedL (2 ^ s.width - 1) s.intervals) :
    List.Pairwise (fun x y => x.hi + 1 < y.lo) s.normalize.intervals ∧
      properL s.normalize.intervals ∧
      (∀ x ∈ s.normalize.intervals, x.hi ≤ 2 ^ s.width - 1) ∧
      ∀ v, v ≤ 2 ^ s.width - 1 →
        (MemL s.normalize.intervals v ↔ MemL s.intervals v) := by
  obtain ⟨hp1, hb1, hm1⟩ := expandImproper_spec s.width s.intervals hb
  have hp2 : properL (sortByLo (expandImproper s.width s.intervals)) :=
    fun x hx => hp1 x (mem_sortByLo hx)
  have hb2 : ∀ x ∈ sortByLo (expandImproper s.width s.intervals),
      x.hi ≤ 2 ^ s.width - 1 :=
    fun x hx => (hb1 x (mem_sortByLo hx)).2
  have hs2 := sorted_sortByLo (expandImproper s.width s.intervals)
  have hnorm : s.normalize.intervals =
      mergeSortedByLo (sortByLo (expandImproper s.width s.intervals)) := rfl
  rw [hnorm]
  cases hsl : sortByLo (expandImproper s.width s.intervals) with
  | nil =>
    refine ⟨by simp [mergeSortedByLo], by simp [mergeSortedByLo, properL],
      by simp [mergeSortedByLo], ?_⟩
    intro v hv
    rw [show mergeSortedByLo ([] : List Interval) = [] from rfl]
    have : MemL (sortByLo (expandImproper s.width s.intervals)) v ↔
        MemL s.intervals v := by
      rw [MemL_sortByLo]
      exact hm1 v hv
    rw [hsl] at this
    rw [← this]
  | cons a rest =>
    rw [hsl] at hp2 hb2 hs2
    obtain ⟨hfirst, hsorted2⟩ := List.pairwise_cons.mp hs2
    obtain ⟨s1, s2, s3, s4, _⟩ := mergeInto_spec (2 ^ s.width - 1) rest a
      hfirst hsorted2 (hp2 a (by simp)) (fun x hx => hp2 x (by simp [hx]))
      (hb2 a (by simp)) (fun x hx => hb2 x (by simp [hx]))
    rw [show mergeSortedByLo (a :: rest) = mergeInto a rest from rfl]
    refine ⟨s1, s2, s3, ?_⟩
    intro v hv
    rw [s4 v, ← MemL_cons, ← hsl, MemL_sortByLo]
    exact hm1 v hv

theorem gapsFrom_spec (w : Nat) :
    ∀ (l : List Interval) (start : Nat),
      List.Pairwise (fun x y => x.hi + 1 < y.lo) l →
      properL l → (∀ x ∈ l, x.hi ≤ 2 ^ w - 1) →
      (∀ x ∈ l, start ≤ x.lo) →
      (∀ v, MemL (gapsFrom w start l) v ↔
        (start ≤ v ∧ v ≤ 2 ^ w - 1 ∧ ¬ MemL l v)) ∧
      properL (gapsFrom w start l) ∧
      (∀ x ∈ gapsFrom w start l, x.hi ≤ 2 ^ w - 1) := by
  intro l
  induction l with
  | nil =>
    intro start _ _ _ _
    by_cases hs : start ≤ 2 ^ w - 1
    · rw [show gapsFrom w start [] = [⟨start, 2 ^ w - 1⟩] from by
        simp [gapsFrom, hs]]
      refine ⟨?_, ?_, ?_⟩
      · intro v
        rw [MemL_cons]
        have e : Interval.Mem ⟨start, 2 ^ w - 1⟩ v ↔
            (start ≤ v ∧ v ≤ 2 ^ w - 1) := by
          simp [Interval.Mem, hs]
        rw [e]
        simp [MemL_nil]
      · intro x hx
        have hx2 : x = ⟨start, 2 ^ w - 1⟩ := by simpa using hx
        subst hx2
        exact hs
      · intro x hx
        have hx2 : x = ⟨start, 2 ^ w - 1⟩ := by simpa using hx
        subst hx2
        exact le_refl _
    · rw [show gapsFrom w start [] = [] from by simp [gapsFrom, hs]]
      refine ⟨?_, by simp [properL], by simp⟩
      intro v
      constructor
      · intro h
        exact absurd h MemL_nil
      · rintro ⟨h1, h2, _⟩
        omega
  | cons i rest ih =>
    intro start hsep hp hbd hst
    obtain ⟨hsep1, hsep2⟩ := List.pairwise_cons.mp hsep
    have hpi : i.lo ≤ i.hi := hp i (by simp)
    have hbi : i.hi ≤ 2 ^ w - 1 := hbd i (by simp)
    have hsti : start ≤ i.lo := hst i (by simp)
    have hprest : properL rest := fun x hx => hp x (by simp [hx])
    have hbrest : ∀ x ∈ rest, x.hi ≤ 2 ^ w - 1 := fun x hx => hbd x (by simp [hx])
    have hstrest : ∀ x ∈ rest, i.hi + 1 ≤ x.lo := fun x hx => by
      have := hsep1 x hx
      omega
    obtain ⟨ihm, ihp, ihb⟩ := ih (i.hi + 1) hsep2 hprest hbrest hstrest
    rw [show gapsFrom w start (i :: rest) =
      (if start < i.lo then [(⟨start, i.lo - 1⟩ : Interval)] else []) ++
        gapsFrom w (i.hi + 1) rest from rfl]
    refine ⟨?_, ?_, ?_⟩
    · intro v
      rw [MemL_append, ihm v, MemL_cons, Mem_proper hpi]
      by_cases hrv : MemL rest v
      · have hv2 : i.hi + 1 < v := by
          obtain ⟨x, hx, hm⟩ := hrv
          have h5 := (Mem_proper (hprest x hx)).mp hm
          have h6 := hsep1 x hx
          omega
        constructor
        · rintro (h | ⟨h1, h2, h3⟩)
          · by_cases hsl : start < i.lo
            · rw [if_pos hsl] at h
              obtain ⟨x, hx, hm⟩ := h
              have hx2 : x = ⟨start, i.lo - 1⟩ := by simpa using hx
              subst hx2
              have := (Mem_proper (by simp; omega)).mp hm
              simp at this
              omega
            · rw [if_neg hsl] at h
              exact absurd h MemL_nil
          · exact absurd hrv h3
        · rintro ⟨h1, h2, h3⟩
          exact absurd (Or.inr hrv) h3
      · constructor
        · rintro (h | ⟨h1, h2, h3⟩)
          · by_cases hsl : start < i.lo
            · rw [if_pos hsl] at h
              obtain ⟨x, hx, hm⟩ := h
              have hx2 : x = ⟨start, i.lo - 1⟩ := by simpa using hx
              subst hx2
              have h4 := (Mem_proper (by simp; omega)).mp hm
              simp at h4
              refine ⟨h4.1, by omega, ?_⟩
              rintro (⟨h5, h6⟩ | h5)
              · omega
              · exact hrv h5
            · rw [if_neg hsl] at h
              exact absurd h MemL_nil
          · refine ⟨by omega, h2, ?_⟩
            rintro (⟨h5, h6⟩ | h5)
            · omega
            · exact hrv h5
        · rintro ⟨h1, h2, h3⟩
          by_cases hvlo : v < i.lo
          · left
            rw [if_pos (by omega)]
            refine ⟨⟨start, i.lo - 1⟩, by simp, ?_⟩
            rw [Mem_proper (by simp; omega)]
            simp
            omega
          · right
            by_cases hvh : v ≤ i.hi
            · exact absurd (Or.inl ⟨by omega, hvh⟩) h3
            · exact ⟨by omega, h2, hrv⟩
    · intro x hx
      rcases List.mem_append.mp hx with h | h
      · by_cases hsl : start < i.lo
        · rw [if_pos hsl] at h
          have hx2 : x = ⟨start, i.lo - 1⟩ := by simpa using h
          subst hx2
          simp
          omega
        · rw [if_neg hsl] at h
          simp at h
      · exact ihp x h
    · intro x hx
      rcases List.mem_append.mp hx with h | h
      · by_cases hsl : start < i.lo
        · rw [if_pos hsl] at h
          have hx2 : x = ⟨start, i.lo - 1⟩ := by simpa using h
          subst hx2
          simp
          omega
        · rw [if_neg hsl] at h
          simp at h
      · exact ihb x h

theorem complement_spec (s : IntervalSet)
    (hb : boundedL (2 ^ s.width - 1) s.intervals) :
    (∀ v, s.complement.memB v = true ↔
      (v ≤ 2 ^ s.width - 1 ∧ ¬ s.memB v = true)) ∧
      boundedL (2 ^ s.width - 1) s.complement.intervals := by
  obtain ⟨hsep, hp, hbd, hm⟩ := normalize_spec s hb
  obtain ⟨gm, gp, gb⟩ := gapsFrom_spec s.width s.normalize.intervals 0 hsep hp
    hbd (fun x _ => Nat.zero_le _)
  have hcomp : s.complement.intervals =
      gapsFrom s.width 0 s.normalize.intervals := rfl
  constructor
  · intro v
    rw [show s.complement.memB v = memList s.complement.intervals v from rfl,
      memList_iff_MemL, hcomp, gm v,
      show s.memB v = memList s.intervals v from rfl, memList_iff_MemL]
    by_cases hv : v ≤ 2 ^ s.width - 1
    · rw [hm v hv]
      simp [hv]
    · constructor
      · rintro ⟨_, h2, _⟩
        exact absurd h2 hv
      · rintro ⟨h1, _⟩
        exact absurd h1 hv
  · intro x hx
    rw [hcomp] at hx
    exact ⟨le_trans (gp x hx) (gb x hx), gb x hx⟩

theorem memB_addInterval (s : IntervalSet) (i : Interval) (v : Nat) :
    (s.addInterval i).memB v = (s.memB v || i.memB v) := by
  simp [IntervalSet.addInterval, IntervalSet.memB, memList, List.any_append]

/-- Semantics of the restricted set computed by the `variable < literal`
rule over the unsigned domain: the recorded set is exactly the base set
with `[literal, max]` excluded. -/
theorem uLCRestricted_mem (bs : IntervalSet) (lit : Nat)
    (hb : boundedL (2 ^ bs.width - 1) bs.intervals)
    (hlit : lit ≤ 2 ^ bs.width - 1) (u : Nat) (hu : u ≤ 2 ^ bs.width - 1) :
    (uLCRestricted bs ⟨lit, 2 ^ bs.width - 1⟩).memB u =
      (bs.memB u && decide (u < lit)) := by
  obtain ⟨cm, cb⟩ := complement_spec bs hb
  have hTb : boundedL (2 ^ bs.width - 1)
      (bs.complement.addInterval ⟨lit, 2 ^ bs.width - 1⟩).intervals := by
    intro x hx
    rcases List.mem_append.mp hx with h | h
    · exact cb x h
    · have hx2 : x = ⟨lit, 2 ^ bs.width - 1⟩ := by simpa using h
      subst hx2
      exact ⟨hlit, le_refl _⟩
  obtain ⟨nsep, np, nbd, nm⟩ := normalize_spec
    (bs.complement.addInterval ⟨lit, 2 ^ bs.width - 1⟩) hTb
  have hTnb : boundedL
      (2 ^ (bs.complement.addInterval
        ⟨lit, 2 ^ bs.width - 1⟩).normalize.width - 1)
      (bs.complement.addInterval
        ⟨lit, 2 ^ bs.width - 1⟩).normalize.intervals :=
    fun x hx => ⟨le_trans (np x hx) (nbd x hx), nbd x hx⟩
  obtain ⟨rm, _⟩ := complement_spec _ hTnb
  have e1 : (uLCRestricted bs ⟨lit, 2 ^ bs.width - 1⟩).memB u = true ↔
      (u ≤ 2 ^ bs.width - 1 ∧
        ¬ (bs.complement.addInterval
          ⟨lit, 2 ^ bs.width - 1⟩).normalize.memB u = true) :=
    rm u
  have e2 : (bs.complement.addInterval
        ⟨lit, 2 ^ bs.width - 1⟩).normalize.memB u = true ↔
      (bs.complement.addInterval ⟨lit, 2 ^ bs.width - 1⟩).memB u = true := by
    rw [show (bs.complement.addInterval
          ⟨lit, 2 ^ bs.width - 1⟩).normalize.memB u =
        memList (bs.complement.addInterval
          ⟨lit, 2 ^ bs.width - 1⟩).normalize.intervals u from rfl,
      memList_iff_MemL,
      show (bs.complement.addInterval ⟨lit, 2 ^ bs.width - 1⟩).memB u =
        memList (bs.complement.addInterval
          ⟨lit, 2 ^ bs.width - 1⟩).intervals u from rfl,
      memList_iff_MemL]
    exact nm u hu
  have e3 := memB_addInterval bs.complement ⟨lit, 2 ^ bs.width - 1⟩ u
  have e4 : Interval.memB ⟨lit, 2 ^ bs.width - 1⟩ u = true ↔
      (lit ≤ u ∧ u ≤ 2 ^ bs.width - 1) := by
    rw [memB_iff_Mem, Mem_proper (by simpa using hlit)]
  rw [Bool.eq_iff_iff, e1]
  constructor
  · rintro ⟨h1, h2⟩
    rw [e2, e3] at h2
    simp only [Bool.or_eq_true] at h2
    push_neg at h2
    have h6 : bs.memB u = true := by
      by_contra hc
      exact h2.1 ((cm u).mpr ⟨hu, hc⟩)
    have h5 : ¬ (lit ≤ u ∧ u ≤ 2 ^ bs.width - 1) := fun hc => h2.2 (e4.mpr hc)
    simp [h6]
    omega
  · intro h
    simp only [Bool.and_eq_true, decide_eq_true_eq] at h
    refine ⟨hu, ?_⟩
    rw [e2, e3]
    simp only [Bool.or_eq_true]
    push_neg
    refine ⟨?_, ?_⟩
    · intro hc
      exact absurd h.1 (by simpa using ((cm u).mp hc).2)
    · intro hc
      have := e4.mp hc
      omega

/-- C9: in `UnifyLiteralComparison` (ordered comparison known true with a
precise literal on the right), `variable <= literal` is handled by
incrementing the literal and reusing the `variable < literal` rule, except
that when the literal already equals the domain maximum (signed max for
signed, all-ones for unsigned) nothing is recorded; symmetrically,
`variable >= literal` decrements the literal and reuses the
`variable > literal` rule with the short-circuit at the domain minimum.
The third conjunct gives the semantics of the `<` rule over the unsigned
domain: the restricted set excludes exactly `[literal, max]` from the
base set of the variable. -/
theorem C9_or_equals_via_strict (v lit : Nat) (bs : IntervalSet)
    (sgn : Bool) (res : Results) :
    (unifyLiteralComparison v bs lit true true sgn res =
      if lit = (if sgn then 2 ^ (bs.width - 1) - 1 else 2 ^ bs.width - 1)
      then res
      else unifyLiteralComparison v bs (modIncr bs.width lit)
        false true sgn res) ∧
    (unifyLiteralComparison v bs lit true false sgn res =
      if lit = (if sgn then 2 ^ (bs.width - 1) else 0) then res
      else unifyLiteralComparison v bs (modDecr bs.width lit)
        false false sgn res) ∧
    (boundedL (2 ^ bs.width - 1) bs.intervals → lit ≤ 2 ^ bs.width - 1 →
      ∀ u, u ≤ 2 ^ bs.width - 1 →
        (uLCRestricted bs ⟨lit, 2 ^ bs.width - 1⟩).memB u =
          (bs.memB u && decide (u < lit))) := by
  refine ⟨?_, ?_, fun hb hlit u hu => uLCRestricted_mem bs lit hb hlit u hu⟩
  · by_cases hmax :
        lit = (if sgn then 2 ^ (bs.width - 1) - 1 else 2 ^ bs.width - 1)
    · simp [unifyLiteralComparison, hmax]
    · simp [unifyLiteralComparison, hmax]
  · by_cases hmin : lit = (if sgn then 2 ^ (bs.width - 1) else 0)
    · simp [unifyLiteralComparison, hmin]
    · simp [unifyLiteralComparison, hmin]

/-- C9 witness: the reduction applied at 8 bits, unsigned: `v <= 200`
becomes `v < 201`, `v >= 60` becomes `v > 59`, and the `v < 10`
restriction keeps exactly the base values below 10 (here: 4). -/
theorem C9_or_equals_via_strict_witness :
    (unifyLiteralComparison 0 (IntervalSet.maximal 8) 200 true true false [] =
      unifyLiteralComparison 0 (IntervalSet.maximal 8) 201 false true false []) ∧
    (unifyLiteralComparison 0 (IntervalSet.maximal 8) 60 true false false [] =
      unifyLiteralComparison 0 (IntervalSet.maximal 8) 59 false false false []) ∧
    (uLCRestricted (IntervalSet.maximal 8) ⟨10, 255⟩).memB 4 =
      ((IntervalSet.maximal 8).memB 4 && decide ((4 : Nat) < 10)) :=
  ⟨((C9_or_equals_via_strict 0 200 (IntervalSet.maximal 8) false []).1).trans
      (if_neg (by decide)),
   ((C9_or_equals_via_strict 0 60 (IntervalSet.maximal 8) false []).2.1).trans
      (if_neg (by decide)),
   (C9_or_equals_via_strict 0 10 (IntervalSet.maximal 8) false []).2.2
      (by unfold boundedL; decide) (by decide) 4 (by decide)⟩

end XlsRQE
